import Mathlib

/-!
Shallow embedding of the fuzzy sequential-match / filter-rank utility
(`fuzzySequentialMatch`, `fuzzyFilterSort`, `createMatchDecorator`,
`_decorateMatch` from the repository source file `src/unnamed/part_000`).

JavaScript strings are modelled as Lean `String`, with the JS string
operations used by the source (`toLowerCase`, `substring`, `split("::")`)
implemented over the character list so that they evaluate inside the kernel.
JS numbers carrying scores are modelled as `Int` (the scorer's scores are
integer-valued); the `Number.NEGATIVE_INFINITY` sentinel used by the
aggregator's running maximum is modelled as `none : Option Int`.

The source imports `fuzzyScore` and `createMatches` from "./filter"; that
file is not part of the repository snapshot, so those two are modelled from
the specification (see their doc comments), while everything else is a
direct translation of the source.
-/

/-- JS `String.prototype.toLowerCase`, character-wise. -/
def jsToLowerCase (s : String) : String :=
  String.mk (s.toList.map Char.toLower)

/-- JS `String.prototype.substring(a, b)`: clamps both indices to the string
length and swaps them when `a > b`. -/
def jsSubstring (s : String) (a b : Nat) : String :=
  let len := s.toList.length
  let a' := min a len
  let b' := min b len
  let lo := min a' b'
  let hi := max a' b'
  String.mk ((s.toList.drop lo).take (hi - lo))

/-- Core loop of JS `split("::")` over a character list: `acc` is the current
fragment, reversed. -/
def splitColonsAux : List Char → List Char → List (List Char)
  | acc, [] => [acc.reverse]
  | acc, ':' :: ':' :: rest => acc.reverse :: splitColonsAux [] rest
  | acc, c :: rest => splitColonsAux (c :: acc) rest

/-- JS `String.prototype.split("::")` (the only separator the source uses). -/
def jsSplitColons (s : String) : List String :=
  (splitColonsAux [] s.toList).map String.mk

/-- A matched character range in the candidate word, as in the scorer's
`IMatch` record: `start` inclusive, `stop` exclusive (the source field is
named `end`, a Lean keyword). -/
structure MatchRange where
  start : Nat
  stop : Nat
deriving DecidableEq, Repr

/-- Modelled from the spec: the `FuzzyScore` type imported from "./filter" is
not in the repository snapshot.  Per spec §4.1 / §6, a scorer result carries a
numeric quality score and the ordered list of disjoint matched character
ranges. -/
structure FuzzyScore where
  score : Int
  ranges : List MatchRange
deriving DecidableEq, Repr

/-- Greedy in-order subsequence match of `pat` against `word`, returning the
matched positions (`i` is the index of the head of `word`); `none` when the
pattern cannot be found in order. -/
def seqPositions : List Char → List Char → Nat → Option (List Nat)
  | [], _, _ => some []
  | _ :: _, [], _ => none
  | p :: ps, w :: ws, i =>
    if p = w then (seqPositions ps ws (i + 1)).map (fun rest => i :: rest)
    else seqPositions (p :: ps) ws (i + 1)

/-- Merge a strictly increasing list of matched positions into half-open
ranges, fusing adjacent positions; `s` and `e` are the start and last
position of the range being built. -/
def mergeRangesAux (s e : Nat) : List Nat → List MatchRange
  | [] => [⟨s, e + 1⟩]
  | p :: ps =>
    if p = e + 1 then mergeRangesAux s p ps
    else ⟨s, e + 1⟩ :: mergeRangesAux p p ps

/-- Merge matched positions into the scorer's disjoint, left-to-right range
list. -/
def mergeRanges : List Nat → List MatchRange
  | [] => []
  | p :: ps => mergeRangesAux p p ps

/-- Modelled from the spec: `fuzzyScore` is imported from "./filter" (the
VS Code sequence-match scorer), which is not in the repository snapshot.
Per spec §4.1: every character of the filter must appear in the candidate in
order (case-insensitively, on the caller-lowercased strings, skipping
allowed); no match is the absent value; the empty filter trivially matches
with empty ranges; a match starting at the candidate's first character
scores strictly positive, a mid-word match scores strictly negative, and a
weak match (here: one starting right after a space) scores exactly zero.
The source's constant arguments `patternStart = 0`, `wordStart = 0`,
`firstMatchCanBeWeak = true` are dropped. -/
def fuzzyScore (filter filterLow word wordLow : String) : Option FuzzyScore :=
  let _ := filter
  match seqPositions filterLow.toList wordLow.toList 0 with
  | none => none
  | some ps =>
    let score : Int :=
      match ps with
      | [] => 0
      | p :: _ =>
        if p = 0 then (word.toList.length : Int)
        else if wordLow.toList.get? (p - 1) = some ' ' then 0
        else -(p : Int)
    some { score := score, ranges := mergeRanges ps }

/-- Modelled from the spec: `createMatches` is imported from "./filter" and
not in the repository snapshot.  It converts a scorer result into the list of
matched character ranges used for decoration (spec §4.1). -/
def createMatches (score : FuzzyScore) : List MatchRange :=
  score.ranges

/-- The item shape accepted by the matcher (`ScorableTextItem` interface).
`rest` stands for the extra fields a caller's `T extends ScorableTextItem`
may carry, so that frame conditions are expressible. -/
structure ScorableTextItem (α : Type) where
  score : Option Int := none
  strings : List String
  decoratedStrings : Option (List (List String)) := none
  rest : α
deriving DecidableEq, Repr

/-- `MatchDecorator` type: a decorator receives the word and the (possibly
absent) scorer result and returns the decorated fragments. -/
def MatchDecorator : Type := String → Option FuzzyScore → List String

/-- Body of the `for (const match of matches)` loop in `_decorateMatch`:
the state is the accumulated `actualWord` together with the running
position `pos`. -/
def decorStep (word left right : String) (st : String × Nat)
    (m : MatchRange) : String × Nat :=
  (st.1 ++ jsSubstring word st.2 m.start ++ left ++
    jsSubstring word m.start m.stop ++ right, m.stop)

/-- `_decorateMatch` from the source: wraps each matched range of `word` with
the marker pair `surroundWith` (accumulating `actualWord` left to right with
a running position `pos`), then splits the wrapped text on `"::"`. -/
def _decorateMatch (word : String) (surroundWith : String × String)
    (scores : Option FuzzyScore) : List String :=
  match scores with
  | none => [word]
  | some sc =>
    let ms := createMatches sc
    let left := surroundWith.1
    let right := surroundWith.2
    let st := ms.foldl (decorStep word left right) ("", 0)
    let actualWord := st.1 ++ jsSubstring word st.2 word.toList.length
    jsSplitColons actualWord

/-- The spec's reading of the decorator's first phase: wrap each matched
span with the markers against raw character offsets of the original word,
written as plain structural recursion over the range list (`pos` is the
next raw offset still to emit). -/
def wrapRanges (word left right : String) : Nat → List MatchRange → String
  | pos, [] => jsSubstring word pos word.toList.length
  | pos, m :: ms =>
    jsSubstring word pos m.start ++ left ++
      jsSubstring word m.start m.stop ++ right ++
      wrapRanges word left right m.stop ms

/-- `createMatchDecorator` from the source. -/
def createMatchDecorator (left right : String) : MatchDecorator :=
  fun word scores => _decorateMatch word (left, right) scores

/-- Per-alias raw-to-effective score step from the source
(`scores[0] === 0 ? 1 : scores[0]`): a raw score of exactly 0 becomes 1,
everything else passes through. -/
def remapZero (s : Int) : Int :=
  if s = 0 then 1 else s

/-- Running-maximum update of the aggregator loop
(`if (score > topScore) topScore = score`), with `none` playing the role of
the `Number.NEGATIVE_INFINITY` initial value. -/
def maxStep (acc : Option Int) (s : Int) : Option Int :=
  match acc with
  | none => some s
  | some t => if s > t then some s else some t

/-- The successful result of `fuzzySequentialMatch` (the object literal
`{ score, strings, decoratedStrings }` the source returns). -/
structure FuzzyMatchResult where
  score : Int
  strings : List String
  decoratedStrings : List (List String)
deriving DecidableEq, Repr

/-- The scorer result for one alias, exactly as the aggregator loop invokes
it (`fuzzyScore(filter, filter.toLowerCase(), 0, word, word.toLowerCase(),
0, true)`). -/
def scoreWord (filter word : String) : Option FuzzyScore :=
  fuzzyScore filter (jsToLowerCase filter) word (jsToLowerCase word)

/-- The `for (const word of item.strings)` loop body of
`fuzzySequentialMatch`: threads the running top score and the collected
decorated strings through the alias list. -/
def fsmLoop (filter : String) (decorate : Option MatchDecorator) :
    List String → Option Int → List (List String) →
    Option Int × List (List String)
  | [], topScore, ds => (topScore, ds)
  | word :: rest, topScore, ds =>
    let scores := scoreWord filter word
    let ds' :=
      match decorate with
      | some d => ds ++ [d word scores]
      | none => ds
    let topScore' :=
      match scores with
      | none => topScore
      | some sc => maxStep topScore (remapZero sc.score)
    fsmLoop filter decorate rest topScore' ds'

/-- `fuzzySequentialMatch` from the source.  `decorate` is an `Option` whose
`none` models a falsy decorator (the `if (decorate)` guard); the default
argument is the source's default `createMatchDecorator("[", "]")`. -/
def fuzzySequentialMatch (filter : String) {α : Type}
    (item : ScorableTextItem α)
    (decorate : Option MatchDecorator := some (createMatchDecorator "[" "]")) :
    Option FuzzyMatchResult :=
  match fsmLoop filter decorate item.strings none [] with
  | (none, _) => none
  | (some top, ds) =>
    some { score := top, strings := item.strings, decoratedStrings := ds }

/-- The `.map` stage of `fuzzyFilterSort`: run the aggregator and write
`score` and `decoratedStrings` back onto the item (`item.score =
match?.score; item.decoratedStrings = match?.decoratedStrings`). -/
def applyMatch (filter : String) (decorate : Option MatchDecorator)
    {α : Type} (item : ScorableTextItem α) : ScorableTextItem α :=
  let mtch := fuzzySequentialMatch filter item decorate
  { item with
    score := mtch.map FuzzyMatchResult.score
    decoratedStrings := mtch.map FuzzyMatchResult.decoratedStrings }

/-- The sort comparator of `fuzzyFilterSort` as a stable-sort ordering:
JS `sort((a, b) => scoreA > scoreB ? -1 : scoreA < scoreB ? 1 : 0)` with the
destructuring defaults `score = 0`; `a` comes before `b` exactly when
`scoreA >= scoreB`. -/
def sortByScoreDesc {α : Type} (a b : ScorableTextItem α) : Prop :=
  b.score.getD 0 ≤ a.score.getD 0

instance {α : Type} : DecidableRel (@sortByScoreDesc α) :=
  fun a b => Int.decLe (b.score.getD 0) (a.score.getD 0)

instance {α : Type} : IsTotal (ScorableTextItem α) sortByScoreDesc :=
  ⟨fun a b => (le_total (b.score.getD 0) (a.score.getD 0)).imp id id⟩

instance {α : Type} : IsTrans (ScorableTextItem α) sortByScoreDesc :=
  ⟨fun _ _ _ hab hbc => le_trans hbc hab⟩

/-- `fuzzyFilterSort` from the source: map (annotate each item), filter out
`score === undefined`, and sort by descending score (JS array sort is
stable; modelled by the stable `List.insertionSort`). -/
def fuzzyFilterSort (filter : String) {α : Type}
    (items : List (ScorableTextItem α))
    (decorate : Option MatchDecorator := some (createMatchDecorator "[" "]")) :
    List (ScorableTextItem α) :=
  List.insertionSort sortByScoreDesc
    ((items.map (applyMatch filter decorate)).filter
      (fun item => item.score.isSome))

/-- Raw (pre-remap) scores of the scorer across a list of aliases, in alias
order; used to state claims about the aggregator. -/
def aliasRawScores (filter : String) (ws : List String) : List Int :=
  ws.filterMap fun word => (scoreWord filter word).map FuzzyScore.score

/-- Raw (pre-remap) scores of the scorer across an item's aliases. -/
def rawScores (filter : String) {α : Type} (item : ScorableTextItem α) :
    List Int :=
  aliasRawScores filter item.strings

/-- Maximum of a list of scores, `none` on the empty list (the aggregator's
loop folded into one function). -/
def listMax (l : List Int) : Option Int :=
  l.foldl maxStep none

/-- The decorated fragment groups the aggregator collects for a list of
aliases: one group per alias (in order) when a decorator is present, nothing
when it is falsy. -/
def decorations (f : String) (d : Option MatchDecorator) (ws : List String) :
    List (List String) :=
  match d with
  | some dec => ws.map fun w => dec w (scoreWord f w)
  | none => []

/-! Helper lemmas -/

theorem maxStep_some (a b : Int) : maxStep (some a) b = some (max a b) := by
  simp only [maxStep, Int.max_def]
  split_ifs <;> simp only [Option.some.injEq] <;> omega

theorem foldl_maxStep_some (l : List Int) :
    ∀ a : Int, l.foldl maxStep (some a) = some (l.foldl max a) := by
  induction l with
  | nil => intro a; rfl
  | cons b l ih =>
    intro a
    rw [List.foldl_cons, maxStep_some, ih, List.foldl_cons]

theorem listMax_nil : listMax [] = none := rfl

theorem listMax_cons (a : Int) (l : List Int) :
    listMax (a :: l) = some (l.foldl max a) := by
  simp only [listMax, List.foldl_cons, maxStep]
  exact foldl_maxStep_some l a

theorem listMax_eq_none_iff (l : List Int) : listMax l = none ↔ l = [] := by
  cases l with
  | nil => simp [listMax_nil]
  | cons a l => simp [listMax_cons]

theorem remapZero_mono {a b : Int} (h : a ≤ b) : remapZero a ≤ remapZero b := by
  simp only [remapZero]
  split_ifs <;> omega

theorem remapZero_of_ne_zero {s : Int} (h : s ≠ 0) : remapZero s = s := by
  simp [remapZero, h]

theorem max_remapZero (a b : Int) :
    max (remapZero a) (remapZero b) = remapZero (max a b) := by
  rcases le_total a b with h | h
  · rw [max_eq_right h, max_eq_right (remapZero_mono h)]
  · rw [max_eq_left h, max_eq_left (remapZero_mono h)]

theorem foldl_max_map_remapZero (l : List Int) :
    ∀ a : Int, (l.map remapZero).foldl max (remapZero a)
      = remapZero (l.foldl max a) := by
  induction l with
  | nil => intro a; rfl
  | cons b l ih =>
    intro a
    rw [List.map_cons, List.foldl_cons, max_remapZero, ih, List.foldl_cons]

theorem listMax_map_remapZero {l : List Int} {s : Int}
    (h : listMax l = some s) :
    listMax (l.map remapZero) = some (remapZero s) := by
  cases l with
  | nil => simp [listMax_nil] at h
  | cons a l =>
    rw [listMax_cons] at h
    rw [List.map_cons, listMax_cons, foldl_max_map_remapZero,
      Option.some_inj.mp h]

theorem fsmLoop_fst (f : String) (d : Option MatchDecorator) :
    ∀ (ws : List String) (acc : Option Int) (ds : List (List String)),
    (fsmLoop f d ws acc ds).1
      = ((aliasRawScores f ws).map remapZero).foldl maxStep acc := by
  intro ws
  induction ws with
  | nil => intro acc ds; rfl
  | cons w rest ih =>
    intro acc ds
    cases h : scoreWord f w with
    | none =>
      simp [fsmLoop, h, ih, aliasRawScores, List.filterMap_cons]
    | some sc =>
      simp [fsmLoop, h, ih, aliasRawScores, List.filterMap_cons]

theorem fsmLoop_snd (f : String) (d : Option MatchDecorator) :
    ∀ (ws : List String) (acc : Option Int) (ds : List (List String)),
    (fsmLoop f d ws acc ds).2 = ds ++ decorations f d ws := by
  intro ws
  induction ws with
  | nil =>
    intro acc ds
    cases d <;> simp [fsmLoop, decorations]
  | cons w rest ih =>
    intro acc ds
    cases d with
    | none => simp [fsmLoop, ih, decorations]
    | some dec => simp [fsmLoop, ih, decorations]

theorem fsm_score_eq (f : String) {α : Type} (item : ScorableTextItem α)
    (d : Option MatchDecorator) :
    (fuzzySequentialMatch f item d).map FuzzyMatchResult.score
      = listMax ((rawScores f item).map remapZero) := by
  have h1 := fsmLoop_fst f d item.strings none []
  rcases hls : fsmLoop f d item.strings none [] with ⟨ts, dss⟩
  rw [hls] at h1
  simp only at h1
  cases ts with
  | none =>
    simp [fuzzySequentialMatch, hls, listMax, rawScores, ← h1]
  | some top =>
    simp [fuzzySequentialMatch, hls, listMax, rawScores, ← h1]

theorem fsm_isSome_iff (f : String) {α : Type} (item : ScorableTextItem α)
    (d : Option MatchDecorator) :
    (fuzzySequentialMatch f item d).isSome ↔ rawScores f item ≠ [] := by
  have h := fsm_score_eq f item d
  constructor
  · intro hs hnil
    rw [hnil] at h
    simp [listMax_nil] at h
    rw [h] at hs
    simp at hs
  · intro hne
    cases hr : rawScores f item with
    | nil => exact absurd hr hne
    | cons a l =>
      rw [hr] at h
      rw [List.map_cons, listMax_cons] at h
      cases hm : fuzzySequentialMatch f item d with
      | none => rw [hm] at h; simp at h
      | some r => simp

theorem fsm_eq_none_iff (f : String) {α : Type} (item : ScorableTextItem α)
    (d : Option MatchDecorator) :
    fuzzySequentialMatch f item d = none ↔ rawScores f item = [] := by
  have h := fsm_isSome_iff f item d
  constructor
  · intro hn
    by_contra hne
    have := h.mpr hne
    rw [hn] at this
    simp at this
  · intro hnil
    cases hm : fuzzySequentialMatch f item d with
    | none => rfl
    | some r =>
      have : (fuzzySequentialMatch f item d).isSome := by rw [hm]; rfl
      exact absurd (h.mp this) (by simp [hnil])

theorem fsm_some_parts (f : String) {α : Type} (item : ScorableTextItem α)
    (d : Option MatchDecorator) (r : FuzzyMatchResult)
    (h : fuzzySequentialMatch f item d = some r) :
    r.strings = item.strings ∧
    r.decoratedStrings = decorations f d item.strings ∧
    some r.score = listMax ((rawScores f item).map remapZero) := by
  have hsc := fsm_score_eq f item d
  rw [h] at hsc
  have h2 := fsmLoop_snd f d item.strings none []
  rcases hls : fsmLoop f d item.strings none [] with ⟨ts, dss⟩
  rw [hls] at h2
  simp only [List.nil_append] at h2
  cases ts with
  | none => simp [fuzzySequentialMatch, hls] at h
  | some top =>
    simp only [fuzzySequentialMatch, hls] at h
    have hr := (Option.some_inj.mp h).symm
    subst hr
    refine ⟨rfl, ?_, ?_⟩
    · simpa using h2
    · simpa using hsc

theorem rawScores_eq_nil_iff (f : String) {α : Type}
    (item : ScorableTextItem α) :
    rawScores f item = [] ↔ ∀ w ∈ item.strings, scoreWord f w = none := by
  simp [rawScores, aliasRawScores, List.filterMap_eq_nil_iff]

theorem fsm_of_listMax (f : String) {α : Type} (item : ScorableTextItem α)
    (d : Option MatchDecorator) {s : Int}
    (h : listMax (rawScores f item) = some s) :
    ∃ r, fuzzySequentialMatch f item d = some r ∧ r.score = remapZero s := by
  have hs := fsm_score_eq f item d
  rw [listMax_map_remapZero h] at hs
  cases hm : fuzzySequentialMatch f item d with
  | none => rw [hm] at hs; simp at hs
  | some r =>
    rw [hm] at hs
    exact ⟨r, rfl, by simpa using hs⟩

theorem applyMatch_strings (f : String) (d : Option MatchDecorator)
    {α : Type} (item : ScorableTextItem α) :
    (applyMatch f d item).strings = item.strings := rfl

theorem applyMatch_rest (f : String) (d : Option MatchDecorator)
    {α : Type} (item : ScorableTextItem α) :
    (applyMatch f d item).rest = item.rest := rfl

theorem applyMatch_score (f : String) (d : Option MatchDecorator)
    {α : Type} (item : ScorableTextItem α) :
    (applyMatch f d item).score
      = (fuzzySequentialMatch f item d).map FuzzyMatchResult.score := rfl

theorem applyMatch_decoratedStrings (f : String) (d : Option MatchDecorator)
    {α : Type} (item : ScorableTextItem α) :
    (applyMatch f d item).decoratedStrings
      = (fuzzySequentialMatch f item d).map
          FuzzyMatchResult.decoratedStrings := rfl

theorem mem_fuzzyFilterSort (f : String) {α : Type}
    (items : List (ScorableTextItem α)) (d : Option MatchDecorator)
    (x : ScorableTextItem α) :
    x ∈ fuzzyFilterSort f items d ↔
      x ∈ (items.map (applyMatch f d)).filter
        (fun item => item.score.isSome) := by
  unfold fuzzyFilterSort
  exact (List.perm_insertionSort sortByScoreDesc _).mem_iff

theorem mem_fuzzyFilterSort_elim (f : String) {α : Type}
    (items : List (ScorableTextItem α)) (d : Option MatchDecorator)
    (x : ScorableTextItem α) (hx : x ∈ fuzzyFilterSort f items d) :
    ∃ inp ∈ items, x = applyMatch f d inp ∧ x.score.isSome := by
  have h1 := (mem_fuzzyFilterSort f items d x).mp hx
  have h2 := List.mem_filter.mp h1
  obtain ⟨inp, hinp, heq⟩ := List.mem_map.mp h2.1
  exact ⟨inp, hinp, heq.symm, by simpa using h2.2⟩

theorem seqPositions_nil (x : List Char) (i : Nat) :
    seqPositions [] x i = some [] := by
  cases x <;> rfl

theorem scoreWord_empty_filter (w : String) :
    scoreWord "" w = some ⟨0, []⟩ := by
  unfold scoreWord fuzzyScore
  rw [show (jsToLowerCase "").toList = ([] : List Char) from rfl]
  rw [seqPositions_nil]
  rfl

theorem aliasRawScores_empty_filter (ws : List String) :
    aliasRawScores "" ws = ws.map (fun _ => (0 : Int)) := by
  induction ws with
  | nil => rfl
  | cons w ws ih =>
    rw [aliasRawScores, List.filterMap_cons] at *
    rw [scoreWord_empty_filter]
    simpa using ih

theorem rawScores_empty_filter {α : Type} (item : ScorableTextItem α) :
    rawScores "" item = item.strings.map (fun _ => (0 : Int)) := by
  rw [rawScores, aliasRawScores_empty_filter]

theorem decorStep_foldl (word left right : String) :
    ∀ (ms : List MatchRange) (acc : String) (pos : Nat),
      (ms.foldl (decorStep word left right) (acc, pos)).1 ++
        jsSubstring word
          (ms.foldl (decorStep word left right) (acc, pos)).2
          word.toList.length
      = acc ++ wrapRanges word left right pos ms := by
  intro ms
  induction ms with
  | nil => intro acc pos; simp [wrapRanges]
  | cons m ms ih =>
    intro acc pos
    rw [List.foldl_cons]
    show (ms.foldl (decorStep word left right)
        (decorStep word left right (acc, pos) m)).1 ++ _ = _
    rw [decorStep, ih]
    simp [wrapRanges, String.append_assoc]

theorem str_empty_append (s : String) : "" ++ s = s := by
  cases s
  rfl

/-! Claim theorems -/

/-- C1: when the best raw alias score is exactly 0, `fuzzySequentialMatch`
remaps it to 1 before comparison/return, so the item still appears in
`fuzzyFilterSort`'s output with score 1; a non-zero best raw score passes
through unchanged (and so does every individual non-zero raw score under
`remapZero`). -/
theorem C1_zero_score_remap (f : String) {α : Type}
    (item : ScorableTextItem α) (d : Option MatchDecorator) :
    (listMax (rawScores f item) = some 0 →
      ∃ r, fuzzySequentialMatch f item d = some r ∧ r.score = 1) ∧
    (∀ s : Int, s ≠ 0 → listMax (rawScores f item) = some s →
      ∃ r, fuzzySequentialMatch f item d = some r ∧ r.score = s) ∧
    (∀ s : Int, s ≠ 0 → remapZero s = s) ∧
    (∀ items : List (ScorableTextItem α), item ∈ items →
      listMax (rawScores f item) = some 0 →
      applyMatch f d item ∈ fuzzyFilterSort f items d ∧
        (applyMatch f d item).score = some 1 ∧
        (applyMatch f d item).strings = item.strings ∧
        (applyMatch f d item).rest = item.rest) := by
  refine ⟨?_, ?_, fun s hs => remapZero_of_ne_zero hs, ?_⟩
  · intro h
    obtain ⟨r, hr, hsc⟩ := fsm_of_listMax f item d h
    exact ⟨r, hr, by simpa [remapZero] using hsc⟩
  · intro s hs h
    obtain ⟨r, hr, hsc⟩ := fsm_of_listMax f item d h
    exact ⟨r, hr, by rwa [remapZero_of_ne_zero hs] at hsc⟩
  · intro items hmem h
    obtain ⟨r, hr, hsc⟩ := fsm_of_listMax f item d h
    have hscore : (applyMatch f d item).score = some 1 := by
      rw [applyMatch_score, hr]
      simp [hsc, remapZero]
    refine ⟨?_, hscore, rfl, rfl⟩
    rw [mem_fuzzyFilterSort]
    refine List.mem_filter.mpr ⟨List.mem_map.mpr ⟨item, hmem, rfl⟩, ?_⟩
    simp [hscore]

/-- C1 witness: with filter `"ab"` the single alias `"x ab"` has raw score
exactly 0, and the item survives `fuzzyFilterSort` with score 1. -/
theorem C1_zero_score_remap_witness :
    listMax (rawScores "ab"
        (⟨none, ["x ab"], none, ()⟩ : ScorableTextItem Unit)) = some 0 ∧
    applyMatch "ab" (some (createMatchDecorator "[" "]"))
        (⟨none, ["x ab"], none, ()⟩ : ScorableTextItem Unit) ∈
      fuzzyFilterSort "ab" [⟨none, ["x ab"], none, ()⟩]
        (some (createMatchDecorator "[" "]")) ∧
    (applyMatch "ab" (some (createMatchDecorator "[" "]"))
        (⟨none, ["x ab"], none, ()⟩ : ScorableTextItem Unit)).score
      = some 1 := by
  have h := (C1_zero_score_remap "ab"
      (⟨none, ["x ab"], none, ()⟩ : ScorableTextItem Unit)
      (some (createMatchDecorator "[" "]"))).2.2.2
    [⟨none, ["x ab"], none, ()⟩] (by simp) (by decide)
  exact ⟨by decide, h.1, h.2.1⟩

/-- C2: the aggregator returns `none` exactly when no alias matched; on a
match the returned score is the maximum of the per-alias scores after the
zero-to-one remap. -/
theorem C2_aggregator_best_alias (f : String) {α : Type}
    (item : ScorableTextItem α) (d : Option MatchDecorator) :
    (fuzzySequentialMatch f item d = none ↔
      ∀ w ∈ item.strings, scoreWord f w = none) ∧
    (∀ r, fuzzySequentialMatch f item d = some r →
      some r.score = listMax ((rawScores f item).map remapZero)) := by
  constructor
  · rw [fsm_eq_none_iff, rawScores_eq_nil_iff]
  · intro r h
    exact (fsm_some_parts f item d r h).2.2

/-- C2 witness: the item with single alias `"xxAb"` matched by `"ab"`
returns the (mid-word, negative) alias score −2 as the best score. -/
theorem C2_aggregator_best_alias_witness :
    some ((-2 : Int)) = listMax ((rawScores "ab"
      (⟨none, ["xxAb"], none, ()⟩ : ScorableTextItem Unit)).map remapZero) :=
  (C2_aggregator_best_alias "ab"
      (⟨none, ["xxAb"], none, ()⟩ : ScorableTextItem Unit)
      (some (createMatchDecorator "[" "]"))).2
    ⟨-2, ["xxAb"], [["xx[Ab]"]]⟩ (by decide)

/-- C3: `fuzzyFilterSort` annotates every item via `applyMatch`, removes the
items with undefined score, and returns the rest sorted by descending score;
items scoring raw [5, −2, 9, 0→1] come back ordered [9, 5, 1, −2]. -/
theorem C3_filter_and_rank (f : String) {α : Type}
    (items : List (ScorableTextItem α)) (d : Option MatchDecorator) :
    (fuzzyFilterSort f items d).Perm
      ((items.map (applyMatch f d)).filter (fun it => it.score.isSome)) ∧
    List.Sorted sortByScoreDesc (fuzzyFilterSort f items d) ∧
    (∀ out ∈ fuzzyFilterSort f items d, out.score.isSome) ∧
    (fuzzyFilterSort "ab"
        [⟨none, ["abcde"], none, ()⟩, ⟨none, ["xxab"], none, ()⟩,
          ⟨none, ["abcdefghi"], none, ()⟩, ⟨none, ["x ab"], none, ()⟩]).map
      (fun it => it.score) = [some 9, some 5, some 1, some (-2)] := by
  refine ⟨List.perm_insertionSort _ _, List.sorted_insertionSort _ _, ?_,
    by decide⟩
  intro out hout
  exact (mem_fuzzyFilterSort_elim f items d out hout).choose_spec.2.2

/-- C3 witness: a concrete surviving item has a defined score. -/
theorem C3_filter_and_rank_witness :
    applyMatch "ab" (some (createMatchDecorator "[" "]"))
        (⟨none, ["ab"], none, ()⟩ : ScorableTextItem Unit) ∈
      fuzzyFilterSort "ab" [⟨none, ["ab"], none, ()⟩]
        (some (createMatchDecorator "[" "]")) ∧
    (applyMatch "ab" (some (createMatchDecorator "[" "]"))
        (⟨none, ["ab"], none, ()⟩ : ScorableTextItem Unit)).score.isSome :=
  ⟨by decide,
    (C3_filter_and_rank "ab" [⟨none, ["ab"], none, ()⟩]
        (some (createMatchDecorator "[" "]"))).2.2.1 _ (by decide)⟩

/-- C4: `applyMatch` touches only the `score` and `decoratedStrings` fields
(`strings` and all caller-owned state `rest` are unchanged), and every
element of `fuzzyFilterSort`'s output is one of the input items updated by
`applyMatch` (the reference-identity of the JS mutation, expressed
functionally). -/
theorem C4_frame_effect (f : String) {α : Type}
    (items : List (ScorableTextItem α)) (d : Option MatchDecorator) :
    (∀ item : ScorableTextItem α,
      (applyMatch f d item).strings = item.strings ∧
      (applyMatch f d item).rest = item.rest) ∧
    (∀ out ∈ fuzzyFilterSort f items d,
      ∃ inp ∈ items, out = applyMatch f d inp) := by
  refine ⟨fun item => ⟨rfl, rfl⟩, ?_⟩
  intro out hout
  obtain ⟨inp, hinp, heq, _⟩ := mem_fuzzyFilterSort_elim f items d out hout
  exact ⟨inp, hinp, heq⟩

/-- C4 witness: the single output of a concrete run is the input item
updated by `applyMatch`. -/
theorem C4_frame_effect_witness :
    applyMatch "ab" (some (createMatchDecorator "[" "]"))
        (⟨none, ["aab"], none, ()⟩ : ScorableTextItem Unit) ∈
      fuzzyFilterSort "ab" [⟨none, ["aab"], none, ()⟩]
        (some (createMatchDecorator "[" "]")) ∧
    ∃ inp ∈ [(⟨none, ["aab"], none, ()⟩ : ScorableTextItem Unit)],
      applyMatch "ab" (some (createMatchDecorator "[" "]"))
          (⟨none, ["aab"], none, ()⟩ : ScorableTextItem Unit)
        = applyMatch "ab" (some (createMatchDecorator "[" "]")) inp :=
  ⟨by decide,
    (C4_frame_effect "ab" [⟨none, ["aab"], none, ()⟩]
        (some (createMatchDecorator "[" "]"))).2 _ (by decide)⟩

/-- C5 counterexample: for an unmatched alias (no scorer result) the
decorator returns the alias as a single fragment WITHOUT splitting it on the
namespace separator, contradicting the claim's "still split on `::`". -/
theorem C5_counterexample :
    _decorateMatch "a::b" ("[", "]") none = ["a::b"] ∧
    jsSplitColons "a::b" = ["a", "b"] ∧
    ¬ _decorateMatch "a::b" ("[", "]") none = jsSplitColons "a::b" := by
  decide

/-- C5 amended: with no scorer result the decorator returns the alias as a
single-element fragment list, NOT split on the namespace separator; the
aggregator collects one decorated fragment-group per alias, including
non-matching aliases, in the same order as the input alias list. -/
theorem C5_no_match_decoration (word : String) (sw : String × String)
    (f : String) {α : Type} (item : ScorableTextItem α)
    (dec : MatchDecorator) (r : FuzzyMatchResult)
    (h : fuzzySequentialMatch f item (some dec) = some r) :
    _decorateMatch word sw none = [word] ∧
    r.decoratedStrings = item.strings.map fun w => dec w (scoreWord f w) := by
  refine ⟨rfl, ?_⟩
  have hd := (fsm_some_parts f item (some dec) r h).2.1
  simpa [decorations] using hd

/-- C5 witness: an item with a matching alias `"ab"` and a non-matching
alias `"zz"` collects one fragment-group per alias, in order, the
non-matching one decorated to the original string. -/
theorem C5_no_match_decoration_witness :
    _decorateMatch "a::b" ("[", "]") none = ["a::b"] ∧
    (⟨2, ["ab", "zz"], [["[ab]"], ["zz"]]⟩ :
        FuzzyMatchResult).decoratedStrings =
      ["ab", "zz"].map fun w =>
        createMatchDecorator "[" "]" w (scoreWord "ab" w) :=
  C5_no_match_decoration "a::b" ("[", "]") "ab"
    (⟨none, ["ab", "zz"], none, ()⟩ : ScorableTextItem Unit)
    (createMatchDecorator "[" "]") ⟨2, ["ab", "zz"], [["[ab]"], ["zz"]]⟩
    (by decide)

/-- C6: decoration first wraps the matched spans against raw character
offsets of the original word (`wrapRanges`), then splits the wrapped text on
`::`; decorating `"light::kitchen"` with the scorer's match on `"kitchen"`
and markers `[` `]` yields exactly the fragments `"light"` and
`"[kitchen]"`. -/
theorem C6_wrap_then_split (word left right : String) (sc : FuzzyScore) :
    _decorateMatch word (left, right) (some sc) =
      jsSplitColons (wrapRanges word left right 0 (createMatches sc)) ∧
    scoreWord "kitchen" "light::kitchen" = some ⟨-7, [⟨7, 14⟩]⟩ ∧
    _decorateMatch "light::kitchen" ("[", "]")
        (scoreWord "kitchen" "light::kitchen") = ["light", "[kitchen]"] := by
  refine ⟨?_, by decide, by decide⟩
  have h := decorStep_foldl word left right (createMatches sc) "" 0
  show jsSplitColons _ = _
  rw [h, str_empty_append]

/-- C7: with the empty filter every item with at least one alias trivially
matches: `fuzzyFilterSort "" items` keeps all items, each with a defined
score. -/
theorem C7_empty_filter {α : Type} (items : List (ScorableTextItem α))
    (d : Option MatchDecorator)
    (h : ∀ it ∈ items, it.strings ≠ []) :
    (fuzzyFilterSort "" items d).length = items.length ∧
    ∀ out ∈ fuzzyFilterSort "" items d, out.score.isSome := by
  have hall : ∀ x ∈ (items.map (applyMatch "" d)), x.score.isSome := by
    intro x hx
    obtain ⟨inp, hinp, rfl⟩ := List.mem_map.mp hx
    rw [applyMatch_score]
    have : (fuzzySequentialMatch "" inp d).isSome := by
      rw [fsm_isSome_iff, rawScores_empty_filter]
      simpa using h inp hinp
    simpa using this
  have hfilter : (items.map (applyMatch "" d)).filter
      (fun it => it.score.isSome) = items.map (applyMatch "" d) := by
    rw [List.filter_eq_self]
    intro x hx
    simpa using hall x hx
  constructor
  · have hperm := List.perm_insertionSort (@sortByScoreDesc α)
      ((items.map (applyMatch "" d)).filter (fun it => it.score.isSome))
    have := hperm.length_eq
    rw [fuzzyFilterSort, this, hfilter, List.length_map]
  · intro out hout
    exact (mem_fuzzyFilterSort_elim "" items d out hout).choose_spec.2.2

/-- C7 witness: for one concrete nonempty-alias item, the empty filter keeps
it. -/
theorem C7_empty_filter_witness :
    ((⟨none, ["Oven"], none, ()⟩ : ScorableTextItem Unit)).strings.length
        = 1 ∧
    (fuzzyFilterSort "" [⟨none, ["Oven"], none, ()⟩]
        (some (createMatchDecorator "[" "]"))).length = 1 :=
  ⟨by decide,
    (C7_empty_filter [⟨none, ["Oven"], none, ()⟩]
        (some (createMatchDecorator "[" "]")) (by decide)).1⟩

/-- C8: the component's only failure outcome is an absent score — an item
with an empty alias list never matches (the aggregator returns `none` for it
rather than failing), and every item surviving the filter pass has a defined
score.  Totality (never raising) holds by construction: every embedded
function is a total Lean function. -/
theorem C8_graceful_degradation (f : String) {α : Type}
    (item : ScorableTextItem α) (d : Option MatchDecorator)
    (items : List (ScorableTextItem α)) :
    (item.strings = [] → fuzzySequentialMatch f item d = none) ∧
    (item.strings = [] → (applyMatch f d item).score = none) ∧
    (∀ out ∈ fuzzyFilterSort f items d, out.score.isSome) := by
  have h1 : item.strings = [] → fuzzySequentialMatch f item d = none := by
    intro h
    apply (fsm_eq_none_iff f item d).mpr
    rw [rawScores, h]
    rfl
  refine ⟨h1, ?_, ?_⟩
  · intro h
    rw [applyMatch_score, h1 h]
    rfl
  · intro out hout
    exact (mem_fuzzyFilterSort_elim f items d out hout).choose_spec.2.2

/-- C8 witness: the aggregator returns `none` on an item with an empty alias
list instead of failing. -/
theorem C8_graceful_degradation_witness :
    fuzzySequentialMatch "ktch"
        (⟨none, [], none, ()⟩ : ScorableTextItem Unit)
        (some (createMatchDecorator "[" "]")) = none ∧
    (applyMatch "ktch" (some (createMatchDecorator "[" "]"))
        (⟨none, [], none, ()⟩ : ScorableTextItem Unit)).score = none :=
  ⟨(C8_graceful_degradation "ktch"
      (⟨none, [], none, ()⟩ : ScorableTextItem Unit)
      (some (createMatchDecorator "[" "]")) []).1 rfl,
    (C8_graceful_degradation "ktch"
      (⟨none, [], none, ()⟩ : ScorableTextItem Unit)
      (some (createMatchDecorator "[" "]")) []).2.1 rfl⟩

/-- C9: after the filter pass's per-item update, the `score` field is
defined if and only if at least one alias matched the filter; in particular
an item that previously had a score but no longer matches has its score
reset to `none`. -/
theorem C9_score_iff_alias_matched (f : String) {α : Type}
    (item : ScorableTextItem α) (d : Option MatchDecorator) :
    ((applyMatch f d item).score.isSome ↔
      ∃ w ∈ item.strings, (scoreWord f w).isSome) ∧
    ((∀ w ∈ item.strings, scoreWord f w = none) →
      (applyMatch f d item).score = none) := by
  have hiff : rawScores f item ≠ [] ↔
      ∃ w ∈ item.strings, (scoreWord f w).isSome := by
    rw [Ne, rawScores_eq_nil_iff]
    push_neg
    constructor
    · rintro ⟨w, hw, hne⟩
      exact ⟨w, hw, Option.isSome_iff_ne_none.mpr hne⟩
    · rintro ⟨w, hw, hs⟩
      exact ⟨w, hw, Option.isSome_iff_ne_none.mp hs⟩
  constructor
  · rw [applyMatch_score]
    rw [show ((fuzzySequentialMatch f item d).map
        FuzzyMatchResult.score).isSome
      = (fuzzySequentialMatch f item d).isSome from by
        cases fuzzySequentialMatch f item d <;> rfl]
    rw [fsm_isSome_iff]
    exact hiff
  · intro hall
    rw [applyMatch_score,
      (fsm_eq_none_iff f item d).mpr (rawScores_eq_nil_iff f item |>.mpr hall)]
    rfl

/-- C9 witness: an item that carried a stale score 5 but matches nothing
under filter `"ab"` has its score reset to `none`. -/
theorem C9_score_iff_alias_matched_witness :
    (applyMatch "ab" (some (createMatchDecorator "[" "]"))
        (⟨some 5, ["zz"], none, ()⟩ : ScorableTextItem Unit)).score
      = none :=
  (C9_score_iff_alias_matched "ab"
      (⟨some 5, ["zz"], none, ()⟩ : ScorableTextItem Unit)
      (some (createMatchDecorator "[" "]"))).2 (by decide)

/-- C10: when the decorator argument is omitted, both entry points fall back
to the bracket decorator `createMatchDecorator "[" "]"`, so decorated
strings are always produced: every match carries one decorated group per
alias, and every item returned by `fuzzyFilterSort` has its
`decoratedStrings` field set accordingly. -/
theorem C10_default_decorator (f : String) {α : Type}
    (item : ScorableTextItem α) (items : List (ScorableTextItem α)) :
    (∀ r, fuzzySequentialMatch f item = some r →
      r.decoratedStrings = item.strings.map fun w =>
        createMatchDecorator "[" "]" w (scoreWord f w)) ∧
    (∀ out ∈ fuzzyFilterSort f items, ∃ inp ∈ items,
      out = applyMatch f (some (createMatchDecorator "[" "]")) inp ∧
      out.decoratedStrings = some (inp.strings.map fun w =>
        createMatchDecorator "[" "]" w (scoreWord f w))) := by
  constructor
  · intro r hr
    have hd := (fsm_some_parts f item
      (some (createMatchDecorator "[" "]")) r hr).2.1
    simpa [decorations] using hd
  · intro out hout
    obtain ⟨inp, hinp, heq, hs⟩ := mem_fuzzyFilterSort_elim f items
      (some (createMatchDecorator "[" "]")) out hout
    refine ⟨inp, hinp, heq, ?_⟩
    have hsome : (fuzzySequentialMatch f inp
        (some (createMatchDecorator "[" "]"))).isSome := by
      rw [heq, applyMatch_score] at hs
      cases hm : fuzzySequentialMatch f inp
          (some (createMatchDecorator "[" "]")) with
      | none => rw [hm] at hs; simp at hs
      | some r => rfl
    obtain ⟨r, hr⟩ := Option.isSome_iff_exists.mp hsome
    have hd := (fsm_some_parts f inp
      (some (createMatchDecorator "[" "]")) r hr).2.1
    rw [heq, applyMatch_decoratedStrings, hr]
    simp only [Option.map_some']
    rw [hd]
    simp [decorations]

/-- C10 witness: the default decorator produces one bracket-decorated group
for the sole alias of a concrete matched item. -/
theorem C10_default_decorator_witness :
    (⟨2, ["ab"], [["[ab]"]]⟩ : FuzzyMatchResult).decoratedStrings =
      ["ab"].map fun w =>
        createMatchDecorator "[" "]" w (scoreWord "ab" w) :=
  (C10_default_decorator "ab"
      (⟨none, ["ab"], none, ()⟩ : ScorableTextItem Unit) []).1
    ⟨2, ["ab"], [["[ab]"]]⟩ (by decide)

